import Mathlib

/-!
Shallow embedding of the Moringa School chatbot
(`src/assignments/03-final-project/moringa-school-chatbot/src/main.rs`).

Modelling conventions:
* Rust `HashMap<String, String>` fields are embedded as association lists
  `List (String × String)`; lookup takes the first entry with a matching key,
  and iteration enumerates the list in order.  The list order makes explicit
  the (otherwise arbitrary, per-process randomized) iteration order of the
  Rust `HashMap`.
* `Instant` timestamps are embedded as `Nat` milliseconds;
  `now.duration_since(last)` becomes truncated subtraction `now - last`
  (the real clock is monotone, so the subtraction never truncates in practice).
* For the word-wrapping function, `&str` is embedded as `List Char` and the
  byte length `str::len` as the character count; the lengths only decide where
  line breaks fall, which the wrapping claims do not depend on.
* Terminal drawing, transcript logging and the random style pick are external
  I/O; the style is a parameter and log lines are dropped.
-/

/-- `Node`: one conversation node (struct `Node` in main.rs).  `message` maps a
style name to the bot text, `options` maps a trigger keyword to the target
node id, `next_node` is the optional default fallback. -/
structure Node where
  id : String
  node_type : String
  message : List (String × String)
  options : List (String × String)
  next_node : Option String
  deriving Repr, DecidableEq

/-- `ConversationFlow`: the node graph (struct `ConversationFlow`). -/
structure ConversationFlow where
  nodes : List (String × Node)
  deriving Repr, DecidableEq

/-- `str::trim` on a character list: whitespace stripped from both ends. -/
def trimChars (s : List Char) : List Char :=
  ((s.dropWhile Char.isWhitespace).reverse.dropWhile Char.isWhitespace).reverse

/-- Rust `String` equality, embedded on the character lists.  (The standard
`String` functions do not reduce in the kernel, so the embedding works on
`String.data` throughout.) -/
def strEqb (a b : String) : Bool := a.data == b.data

/-- `str::starts_with`. -/
def strStartsWith (s prefixStr : String) : Bool :=
  prefixStr.data.isPrefixOf s.data

/-- `str::to_lowercase`, per-character lowering. -/
def strToLower (s : String) : String := ⟨s.data.map Char.toLower⟩

/-- `str::trim` as a `String` function. -/
def strTrim (s : String) : String := ⟨trimChars s.data⟩

/-- Association-list lookup, embedding `HashMap::get`. -/
def lookupAssoc (l : List (String × String)) (k : String) : Option String :=
  (l.find? (fun p => strEqb p.1 k)).map Prod.snd

/-- `flow.nodes.get(id)`. -/
def lookupNode (flow : ConversationFlow) (id : String) : Option Node :=
  (flow.nodes.find? (fun p => strEqb p.1 id)).map Prod.snd

/-- `const EXIT_COMMANDS: [&str; 4] = ["no", "bye", "quit", "exit"];` -/
def EXIT_COMMANDS : List String := ["no", "bye", "quit", "exit"]

/-- The input normalization applied on submit:
`app.input.trim().to_lowercase()`. -/
def normalizeInput (raw : String) : String := strToLower (strTrim raw)

/-- The option scan (main.rs lines 287-294):
`node.options.iter().find_map(|(key, next)| if user_input.starts_with(key.to_lowercase()) ...)`. -/
def findOption (options : List (String × String)) (user_input : String) : Option String :=
  options.findSome? (fun kv =>
    if strStartsWith user_input (strToLower kv.1) then some kv.2 else none)

/-- Punctuated option list (main.rs lines 306-319): zero keys yields
"No options available.", one key is quoted, two or more are comma-joined with
" or " before the last. -/
def optionsListString (keys : List String) : String :=
  match keys with
  | [] => "No options available."
  | [k] => "'" ++ k ++ "'"
  | _ =>
    String.intercalate ", " (keys.dropLast.map (fun k => "'" ++ k ++ "'"))
      ++ " or '" ++ (keys.getLast?.getD "") ++ "'"

/-- The full help message emitted on unrecognized input (main.rs line 321). -/
def unrecognizedMessage (node : Node) : String :=
  "I'm sorry, I didn't understand that. Please choose from: "
    ++ optionsListString (node.options.map Prod.fst)

/-- Outcome of the routing step: either the session moves to a next node
(`current_node_id := next`, `waiting_for_input := false`) or a help message is
emitted and the node is unchanged. -/
inductive RouteResult where
  | goto (next : String)
  | help (msg : String)
  deriving Repr, DecidableEq

/-- The routing step applied to a submitted, normalized line
(main.rs lines 285-324): the `if`/`else if` chain over the option scan,
the exit-command check and `next_node`. -/
def routeInput (node : Node) (user_input : String) : RouteResult :=
  let next_id := findOption node.options user_input
  if next_id.isNone ∧ EXIT_COMMANDS.any (fun cmd => strEqb cmd user_input) then
    RouteResult.goto "exit_conversation"
  else
    match next_id, node.next_node with
    | some id, _ => RouteResult.goto id
    | none, some d => RouteResult.goto d
    | none, none => RouteResult.help (unrecognizedMessage node)

/-- Spec-side rendering of the routing priority, written from the spec's
words: first the keyword match, only then the exit words, only then
`default_next`, otherwise the help message. -/
def routeSpecPriority (node : Node) (user_input : String) : RouteResult :=
  match findOption node.options user_input with
  | some t => RouteResult.goto t
  | none =>
    if user_input ∈ EXIT_COMMANDS then RouteResult.goto "exit_conversation"
    else
      match node.next_node with
      | some d => RouteResult.goto d
      | none => RouteResult.help (unrecognizedMessage node)

/-- Spec-side rendering of the help-list punctuation, written from the spec's
words: each keyword in single quotes, comma-joined, with "or" before the
last; "No options available." when there are none. -/
def specJoinKeys : List String → String
  | [] => "No options available."
  | [k] => "'" ++ k ++ "'"
  | [a, b] => "'" ++ a ++ "' or '" ++ b ++ "'"
  | a :: rest => "'" ++ a ++ "', " ++ specJoinKeys rest

/-- `ChatMessage`: one turn of the transcript.  `last_char_time` holds the
`Instant` of the last reveal, embedded as `Nat` milliseconds. -/
structure ChatMessage where
  text : String
  is_bot : Bool
  displayed_chars : Nat
  last_char_time : Option Nat
  complete : Bool
  deriving Repr, DecidableEq

/-- `ChatMessage::new`. -/
def ChatMessage.new (text : String) (is_bot : Bool) : ChatMessage :=
  { text := text
    is_bot := is_bot
    displayed_chars := 0
    last_char_time := none
    complete := false }

/-- The user `ChatMessage` pushed on submit (main.rs lines 274-277): created
already complete, with every character displayed. -/
def userMessageOf (raw : String) : ChatMessage :=
  { text := raw
    is_bot := false
    displayed_chars := raw.length
    last_char_time := none
    complete := true }

/-- `ChatMessage::update_typing`, with the current time `now` passed in for
`Instant::now()`.  Returns the updated message and the method's `bool`
(whether a character was revealed). -/
def ChatMessage.update_typing (m : ChatMessage) (now : Nat) : ChatMessage × Bool :=
  if m.complete then (m, false)
  else
    let should_add_char :=
      match m.last_char_time with
      | none => true
      | some last_time =>
        let elapsed := now - last_time
        if m.displayed_chars > 0 then
          if m.text.data.get? (m.displayed_chars - 1) == some ' ' then
            decide (45 ≤ elapsed)
          else
            decide (5 ≤ elapsed)
        else
          decide (5 ≤ elapsed)
    if should_add_char && decide (m.displayed_chars < m.text.length) then
      let d := m.displayed_chars + 1
      ({ m with
          displayed_chars := d
          last_char_time := some now
          complete := decide (m.text.length ≤ d) }, true)
    else
      (m, false)

/-- `App`: the mutable UI state (messages, input buffer, scroll state).  The
transcript file handle is external I/O and is dropped. -/
structure AppState where
  messages : List ChatMessage
  input : String
  scroll_offset : Nat
  auto_scroll : Bool
  deriving Repr, DecidableEq

/-- `App::new`. -/
def AppState.new : AppState :=
  { messages := [], input := "", scroll_offset := 0, auto_scroll := true }

/-- `App::add_message`: push a fresh message and re-enable auto-scroll
(the transcript logging side effect is dropped). -/
def AppState.add_message (a : AppState) (text : String) (is_bot : Bool) : AppState :=
  { a with
      messages := a.messages ++ [ChatMessage.new text is_bot]
      auto_scroll := true }

/-- `App::scroll_down`: decrement the offset when positive, and disable
auto-scroll. -/
def AppState.scroll_down (a : AppState) : AppState :=
  { a with
      scroll_offset := if a.scroll_offset > 0 then a.scroll_offset - 1 else a.scroll_offset
      auto_scroll := false }

/-- `App::scroll_up`: increment the offset while more than `max_messages`
messages exist and the offset is below `len - max_messages`, and disable
auto-scroll. -/
def AppState.scroll_up (a : AppState) (max_messages : Nat) : AppState :=
  { a with
      scroll_offset :=
        if a.messages.length > max_messages then
          if a.scroll_offset < a.messages.length - max_messages then
            a.scroll_offset + 1
          else a.scroll_offset
        else a.scroll_offset
      auto_scroll := false }

/-- Folding `App::add_message` over a list of (text, is_bot) pairs. -/
def addMessages (a : AppState) (items : List (String × Bool)) : AppState :=
  items.foldl (fun acc it => acc.add_message it.1 it.2) a

/-- The per-tick typing pass of `run_app` (lines 234-241): update every
incomplete bot message once at time `now`. -/
def updateAllTyping (msgs : List ChatMessage) (now : Nat) : List ChatMessage :=
  msgs.map (fun m => if m.is_bot ∧ ¬ m.complete then (m.update_typing now).1 else m)

/-- `app.messages.iter().any(|msg| msg.is_bot && !msg.complete)`. -/
def typingInProgress (msgs : List ChatMessage) : Bool :=
  msgs.any (fun m => m.is_bot && !m.complete)

/-- Repeated `update_typing` calls at the given times; also counts the calls
that returned `true` (revealed a character). -/
def runUpdates (m : ChatMessage) : List Nat → ChatMessage × Nat
  | [] => (m, 0)
  | t :: ts =>
    let step := m.update_typing t
    let rest := runUpdates step.1 ts
    (rest.1, (if step.2 then 1 else 0) + rest.2)

/-- The loop-local state of `run_app`: the `App` plus `current_node_id`,
`waiting_for_input` and `conversation_ended`. -/
structure SessionState where
  app : AppState
  current_node_id : String
  waiting_for_input : Bool
  conversation_ended : Bool
  deriving Repr, DecidableEq

/-- The state at the top of `run_app`'s loop. -/
def initialState : SessionState :=
  { app := AppState.new
    current_node_id := "start"
    waiting_for_input := false
    conversation_ended := false }

/-- The fallback text when a node lacks the selected style
(main.rs line 219). -/
def apologyText : String :=
  "I apologize, but I seem to have encountered a conversational glitch."

/-- The error text emitted when `current_node_id` is absent from the graph
(main.rs line 206). -/
def invalidNodeText (id : String) : String :=
  "ERROR: Invalid node ID '" ++ id ++ "' found. Exiting."

/-- Discrete input events (the `KeyCode`s `run_app` reacts to). -/
inductive Event where
  | keyChar (c : Char)
  | backspace
  | enter
  | esc
  | up
  | down
  | other
  deriving Repr, DecidableEq

/-- One loop iteration's outcome: continue with a new state, `break` out of
the loop, or hit the `unwrap()` panic on node lookup (line 283). -/
inductive TickResult where
  | next (s : SessionState)
  | halted (s : SessionState)
  | panicked
  deriving Repr, DecidableEq

/-- The node-emission phase at the top of the loop (main.rs lines 201-229).
The returned flag is true when the error branch ran `continue`, skipping the
rest of the iteration. -/
def emitPhase (flow : ConversationFlow) (style : String) (s : SessionState) :
    SessionState × Bool :=
  if ¬ s.waiting_for_input ∧ ¬ s.conversation_ended then
    match lookupNode flow s.current_node_id with
    | none =>
      ({ s with
          app := s.app.add_message (invalidNodeText s.current_node_id) true
          conversation_ended := true
          waiting_for_input := true }, true)
    | some node =>
      let message_text := (lookupAssoc node.message style).getD apologyText
      ({ s with
          app := s.app.add_message message_text true
          conversation_ended := s.conversation_ended || strEqb node.node_type "end"
          waiting_for_input := true }, false)
  else (s, false)

/-- The `KeyCode::Enter` branch (main.rs lines 260-326).  `tip` is the
`typing_in_progress` flag computed just before event handling. -/
def handleEnter (flow : ConversationFlow) (s : SessionState) (tip : Bool) :
    TickResult :=
  if s.conversation_ended then TickResult.halted s
  else if tip then TickResult.next s
  else if s.app.input = "" then TickResult.next s
  else
    let user_input := normalizeInput s.app.input
    let user_message := s.app.input
    let app1 : AppState :=
      { s.app with input := "", messages := s.app.messages ++ [userMessageOf user_message] }
    match lookupNode flow s.current_node_id with
    | none => TickResult.panicked
    | some node =>
      match routeInput node user_input with
      | RouteResult.goto id =>
        TickResult.next
          { s with app := app1, current_node_id := id, waiting_for_input := false }
      | RouteResult.help msg =>
        TickResult.next { s with app := app1.add_message msg true }

/-- Dispatch of one polled event (main.rs lines 247-339). -/
def handleEvent (flow : ConversationFlow) (s : SessionState) (tip : Bool) :
    Option Event → TickResult
  | none => TickResult.next s
  | some (Event.keyChar c) =>
    TickResult.next
      (if s.conversation_ended then s
       else { s with app := { s.app with input := s.app.input.push c } })
  | some Event.backspace =>
    TickResult.next
      (if s.conversation_ended then s
       else { s with app := { s.app with input := ⟨s.app.input.data.dropLast⟩ } })
  | some Event.enter => handleEnter flow s tip
  | some Event.esc => TickResult.halted s
  | some Event.up => TickResult.next { s with app := s.app.scroll_up 10 }
  | some Event.down => TickResult.next { s with app := s.app.scroll_down }
  | some Event.other => TickResult.next s

/-- One iteration of `run_app`'s loop: emission phase, typing-animation pass
at time `now`, then handling of at most one polled event. -/
def tick (flow : ConversationFlow) (style : String) (s : SessionState)
    (now : Nat) (ev : Option Event) : TickResult :=
  let em := emitPhase flow style s
  if em.2 then TickResult.next em.1
  else
    let s2 : SessionState :=
      { em.1 with app := { em.1.app with messages := updateAllTyping em.1.app.messages now } }
    handleEvent flow s2 (typingInProgress s2.app.messages) ev

/-- States reachable by iterating `tick` from the initial state. -/
inductive Reachable (flow : ConversationFlow) (style : String) : SessionState → Prop
  | init : Reachable flow style initialState
  | step {s s' : SessionState} {now : Nat} {ev : Option Event} :
      Reachable flow style s →
      tick flow style s now ev = TickResult.next s' →
      Reachable flow style s'

/-- Graph-integrity invariant: while the session is awaiting input and not
ended, the current node id resolves in the graph, so the `unwrap()` at
main.rs line 283 cannot fail. -/
def NodeOk (flow : ConversationFlow) (s : SessionState) : Prop :=
  s.waiting_for_input = true → s.conversation_ended = false →
    (lookupNode flow s.current_node_id).isSome = true

/-- Projection of a `TickResult` onto the continuing state, when any. -/
def tickNextState : TickResult → Option SessionState
  | TickResult.next s => some s
  | TickResult.halted _ => none
  | TickResult.panicked => none

/-- `str::split_whitespace` on a character list: the maximal runs of
non-whitespace characters, in order. -/
def splitWs (s : List Char) : List (List Char) :=
  match h : s.dropWhile Char.isWhitespace with
  | [] => []
  | c :: cs =>
    (c :: cs.takeWhile (fun ch => !ch.isWhitespace)) ::
      splitWs (cs.dropWhile (fun ch => !ch.isWhitespace))
termination_by s.length
decreasing_by
  simp_wf
  have h1 : (s.dropWhile Char.isWhitespace).length ≤ s.length :=
    (List.dropWhile_sublist _).length_le
  rw [h] at h1
  have h2 : (cs.dropWhile (fun ch => !ch.isWhitespace)).length ≤ cs.length :=
    (List.dropWhile_sublist _).length_le
  simp only [List.length_cons] at h1
  omega

/-- The `for word in text.split_whitespace()` loop body of `wrap_text`
(main.rs lines 516-527), with the accumulated `lines` and `current_line`. -/
def wrapCore (maxWidth : Nat) :
    List (List Char) → List (List Char) → List Char → List (List Char) × List Char
  | [], lines, current => (lines, current)
  | w :: ws, lines, current =>
    let flushed :=
      if current.length + w.length + 1 > maxWidth then
        if current ≠ [] then (lines ++ [trimChars current], ([] : List Char))
        else (lines, current)
      else (lines, current)
    let current2 :=
      if flushed.2 ≠ [] then flushed.2 ++ ' ' :: w else flushed.2 ++ w
    wrapCore maxWidth ws flushed.1 current2

/-- `wrap_text` (main.rs lines 512-538), on character lists; `str::len` is
embedded as the character count (it only decides where lines break). -/
def wrap_text (text : List Char) (maxWidth : Nat) : List (List Char) :=
  let res := wrapCore maxWidth (splitWs text) [] []
  let lines := if res.2 ≠ [] then res.1 ++ [trimChars res.2] else res.1
  if lines = [] then [[]] else lines

/-- Joining lines (or words) with single spaces. -/
def joinSp : List (List Char) → List Char
  | [] => []
  | [w] => w
  | w :: ws => w ++ ' ' :: joinSp ws

/-- A word as produced by whitespace splitting: non-empty, no whitespace. -/
def CleanWord (w : List Char) : Prop :=
  w ≠ [] ∧ ∀ c ∈ w, c.isWhitespace = false

/-- Concrete node with a single option keyed "yes". -/
def exNodeYes : Node :=
  { id := "ask"
    node_type := "question"
    message := [("base", "Shall we proceed?")]
    options := [("yes", "node_yes")]
    next_node := none }

/-- Concrete node holding the options `{"y" ↦ "node_a", "yes" ↦ "node_b"}`
enumerated with `"y"` first. -/
def exNodeOrderA : Node :=
  { id := "n"
    node_type := "question"
    message := []
    options := [("y", "node_a"), ("yes", "node_b")]
    next_node := none }

/-- The same options as `exNodeOrderA`, enumerated with `"yes"` first. -/
def exNodeOrderB : Node :=
  { id := "n"
    node_type := "question"
    message := []
    options := [("yes", "node_b"), ("y", "node_a")]
    next_node := none }

/-- Concrete node with two options and no `next_node`. -/
def exNodeTwoOpts : Node :=
  { id := "ask2"
    node_type := "question"
    message := [("base", "Pick one.")]
    options := [("alpha", "a1"), ("beta", "b1")]
    next_node := none }

/-- Graph holding only `exNodeTwoOpts`. -/
def exFlowTwoOpts : ConversationFlow := { nodes := [("ask2", exNodeTwoOpts)] }

/-- Session state awaiting input at `exNodeTwoOpts` with pending input
"zzz". -/
def exStateTwoOpts : SessionState :=
  { app := { messages := [], input := "zzz", scroll_offset := 0, auto_scroll := true }
    current_node_id := "ask2"
    waiting_for_input := true
    conversation_ended := false }

/-- Concrete node with no options and no `next_node`. -/
def exNodeBare : Node :=
  { id := "bare"
    node_type := "question"
    message := [("base", "Hello.")]
    options := []
    next_node := none }

/-- Graph holding only `exNodeBare` under id "bare". -/
def exFlowBare : ConversationFlow := { nodes := [("bare", exNodeBare)] }

/-- Session state awaiting input at `exNodeBare` with a whitespace-only
pending input line. -/
def exStateWhitespace : SessionState :=
  { app := { messages := [], input := " ", scroll_offset := 0, auto_scroll := true }
    current_node_id := "bare"
    waiting_for_input := true
    conversation_ended := false }

/-- Session state awaiting input at `exNodeBare` with an empty pending
input. -/
def exStateEmptyInput : SessionState :=
  { app := { messages := [], input := "", scroll_offset := 0, auto_scroll := true }
    current_node_id := "bare"
    waiting_for_input := true
    conversation_ended := false }

/-- Session state about to emit a bot turn for a node id that is absent from
`exFlowBare`. -/
def exStateMissingNode : SessionState :=
  { app := AppState.new
    current_node_id := "missing"
    waiting_for_input := false
    conversation_ended := false }

/-- Session state awaiting input whose history holds a bot message with empty
text. -/
def exStateEmptyBotMsg : SessionState :=
  { app :=
      { messages := [ChatMessage.new "" true]
        input := "x"
        scroll_offset := 0
        auto_scroll := true }
    current_node_id := "bare"
    waiting_for_input := true
    conversation_ended := false }

/-- The reveal gate for a message whose already-revealed tail is not a
space: reveal immediately when nothing was revealed yet, otherwise after the
5 ms base delay. -/
def baseGate (last : Option Nat) (now : Nat) : Bool :=
  match last with
  | none => true
  | some l => decide (5 ≤ now - l)

/-! ## Theorems -/

/-- `strEqb` tests string equality. -/
theorem strEqb_iff {a b : String} : strEqb a b = true ↔ a = b := by
  cases a; cases b
  simp only [strEqb, beq_iff_eq]
  exact ⟨fun h => h ▸ rfl, fun h => by cases h; rfl⟩

/-- The exit-command scan of `routeInput` tests membership in
`EXIT_COMMANDS`. -/
theorem exitAny_iff {u : String} :
    (EXIT_COMMANDS.any fun cmd => strEqb cmd u) = true ↔ u ∈ EXIT_COMMANDS := by
  rw [List.any_eq_true]
  constructor
  · rintro ⟨x, hx, hxe⟩
    rw [strEqb_iff.mp hxe] at hx
    exact hx
  · intro h
    exact ⟨u, h, strEqb_iff.mpr rfl⟩

/-- Whatever `findOption` returns was one of the node's option targets, with a
matching lower-cased keyword prefix. -/
theorem findOption_eq_some {options : List (String × String)} {u t : String}
    (h : findOption options u = some t) :
    ∃ kv ∈ options, kv.2 = t ∧ strStartsWith u (strToLower kv.1) = true := by
  obtain ⟨kv, hmem, hkv⟩ := List.exists_of_findSome?_eq_some h
  by_cases hs : strStartsWith u (strToLower kv.1) = true
  · exact ⟨kv, hmem, by simpa [hs] using hkv, hs⟩
  · simp [hs] at hkv

/-- The routing chain of main.rs lines 285-324 equals the strict-priority
form: keyword match first, exit words second, `next_node` third, help
message last. -/
theorem routeInput_eq_spec (node : Node) (u : String) :
    routeInput node u = routeSpecPriority node u := by
  simp only [routeInput, routeSpecPriority]
  cases h : findOption node.options u with
  | some t => simp
  | none =>
    simp only [Option.isNone_none, true_and]
    by_cases hm : u ∈ EXIT_COMMANDS
    · rw [if_pos (exitAny_iff.mpr hm), if_pos hm]
    · rw [if_neg (fun hc => hm (exitAny_iff.mp hc)), if_neg hm]
      cases node.next_node <;> rfl

/-- C1: for every submitted non-empty user line, routing follows strict
priority — keyword prefix match first, exit words only when no keyword
matched, `next_node` only when neither applied, otherwise the help message —
and keyword matching is case-insensitive, so "YES please" matches an option
keyed "yes". -/
theorem routing_priority_and_case_insensitive :
    (∀ (node : Node) (u : String), routeInput node u = routeSpecPriority node u) ∧
    routeInput exNodeYes (normalizeInput "YES please") = RouteResult.goto "node_yes" :=
  ⟨routeInput_eq_spec, by decide⟩

/-- C2's failing behavior: the two enumeration orders of the same options
mapping `{"y" ↦ "node_a", "yes" ↦ "node_b"}` route the same input "yes" to
different nodes, so the winner among several matching keywords depends on the
HashMap iteration order, which is randomized across runs. -/
theorem routing_order_dependent :
    routeInput exNodeOrderA "yes" = RouteResult.goto "node_a" ∧
    routeInput exNodeOrderB "yes" = RouteResult.goto "node_b" ∧
    exNodeOrderA.options.Perm exNodeOrderB.options ∧
    exNodeOrderA.options ≠ exNodeOrderB.options := by
  refine ⟨by decide, by decide, ?_, by decide⟩
  exact List.Perm.swap _ _ _

/-- C3: for nodes that do not themselves reference the reserved id, the exit
route is taken iff no option keyword prefix-matches the input and the
input exactly equals one of "no", "bye", "quit", "exit". -/
theorem exit_route_iff (node : Node) (u : String)
    (hopt : ∀ kv ∈ node.options, kv.2 ≠ "exit_conversation")
    (hdef : node.next_node ≠ some "exit_conversation") :
    routeInput node u = RouteResult.goto "exit_conversation" ↔
      (findOption node.options u = none ∧ u ∈ EXIT_COMMANDS) := by
  simp only [routeInput]
  cases h : findOption node.options u with
  | some t =>
    obtain ⟨kv, hmem, hkv, -⟩ := findOption_eq_some h
    simp only [h, Option.isNone_some]
    constructor
    · intro hgoto
      simp only [Bool.false_eq_true, false_and, if_false] at hgoto
      cases hgoto
      exact absurd hkv (hopt kv hmem)
    · rintro ⟨hc, -⟩; cases hc
  | none =>
    simp only [h, Option.isNone_none, true_and]
    by_cases hm : u ∈ EXIT_COMMANDS
    · rw [if_pos (exitAny_iff.mpr hm)]
      simp [hm]
    · rw [if_neg (fun hc => hm (exitAny_iff.mp hc))]
      simp only [hm, and_false, iff_false]
      cases hd : node.next_node with
      | none => simp
      | some d =>
        intro hgoto
        cases hgoto
        exact hdef (by rw [hd])

/-- Witness for C3 at concrete inputs: "no thanks" does not trigger the exit
route (exit matching is exact, not prefix), while "bye" does. -/
theorem exit_route_iff_witness :
    routeInput exNodeYes "no thanks" ≠ RouteResult.goto "exit_conversation" ∧
    routeInput exNodeYes "bye" = RouteResult.goto "exit_conversation" := by
  constructor
  · intro h
    have := (exit_route_iff exNodeYes "no thanks" (by decide) (by decide)).mp h
    exact absurd this.2 (by decide)
  · exact (exit_route_iff exNodeYes "bye" (by decide) (by decide)).mpr ⟨by decide, by decide⟩

/-- Unfolding `String.intercalate.go` once. -/
theorem intercalate_go_cons (s : String) : ∀ (as : List String) (acc a : String),
    String.intercalate.go acc s (a :: as) = acc ++ s ++ String.intercalate.go a s as := by
  intro as
  induction as with
  | nil => intro acc a; rfl
  | cons b bs ih =>
    intro acc a
    show String.intercalate.go (acc ++ s ++ a) s (b :: bs) = _
    rw [ih (acc ++ s ++ a) b, ih a b]
    simp [String.append_assoc]

/-- `String.intercalate` on a cons with a non-empty tail. -/
theorem intercalate_cons (s x : String) (xs : List String) (h : xs ≠ []) :
    String.intercalate s (x :: xs) = x ++ s ++ String.intercalate s xs := by
  cases xs with
  | nil => cases h rfl
  | cons a as =>
    show String.intercalate.go x s (a :: as) = _
    rw [intercalate_go_cons s as x a]
    rfl

/-- The punctuated option list of the code equals the spec's comma/or
rendering. -/
theorem optionsList_eq_specJoin : ∀ keys, optionsListString keys = specJoinKeys keys
  | [] => rfl
  | [_] => rfl
  | [a, b] => by
    show ("'" ++ a ++ "'") ++ " or '" ++ b ++ "'" = "'" ++ a ++ "' or '" ++ b ++ "'"
    simp only [String.append_assoc]
    rfl
  | a :: b :: c :: rest => by
    have ih := optionsList_eq_specJoin (b :: c :: rest)
    show String.intercalate ", "
        (((a :: b :: c :: rest).dropLast).map (fun k => "'" ++ k ++ "'"))
        ++ " or '" ++ ((a :: b :: c :: rest).getLast?.getD "") ++ "'"
      = "'" ++ a ++ "', " ++ specJoinKeys (b :: c :: rest)
    rw [show (a :: b :: c :: rest).dropLast = a :: (b :: c :: rest).dropLast from rfl,
        List.map_cons,
        intercalate_cons ", " _ _ (by
          rw [show (b :: c :: rest).dropLast = b :: (c :: rest).dropLast from rfl]
          simp),
        List.getLast?_cons_cons, ← ih]
    show (("'" ++ a ++ "'") ++ ", "
        ++ String.intercalate ", " ((b :: c :: rest).dropLast.map (fun k => "'" ++ k ++ "'")))
        ++ " or '" ++ ((b :: c :: rest).getLast?.getD "") ++ "'"
      = "'" ++ a ++ "', "
        ++ (String.intercalate ", " ((b :: c :: rest).dropLast.map (fun k => "'" ++ k ++ "'"))
          ++ " or '" ++ ((b :: c :: rest).getLast?.getD "") ++ "'")
    simp only [String.append_assoc]
    rfl

/-- The typing pass leaves a history of complete messages untouched. -/
theorem updateAllTyping_complete {msgs : List ChatMessage} {now : Nat}
    (h : ∀ m ∈ msgs, m.complete = true) : updateAllTyping msgs now = msgs := by
  induction msgs with
  | nil => rfl
  | cons m ms ih =>
    have hm := h m (List.mem_cons_self _ _)
    have ht := ih (fun x hx => h x (List.mem_cons_of_mem _ hx))
    simp only [updateAllTyping, List.map_cons] at ht ⊢
    rw [ht]
    simp [hm]

/-- No typing is in progress when every message is complete. -/
theorem typingInProgress_complete {msgs : List ChatMessage}
    (h : ∀ m ∈ msgs, m.complete = true) : typingInProgress msgs = false := by
  simp only [typingInProgress, List.any_eq_false]
  intro m hm
  simp [h m hm]

/-- Routing falls through to the help message when nothing matches. -/
theorem routeInput_help {node : Node} {u : String}
    (h1 : findOption node.options u = none)
    (h2 : u ∉ EXIT_COMMANDS)
    (h3 : node.next_node = none) :
    routeInput node u = RouteResult.help (unrecognizedMessage node) := by
  rw [routeInput_eq_spec]
  simp [routeSpecPriority, h1, h2, h3]

/-- While awaiting input over a fully revealed history, a tick reduces to
plain event handling with no typing in progress. -/
theorem tick_awaiting (flow : ConversationFlow) (style : String)
    (s : SessionState) (now : Nat) (ev : Option Event)
    (hw : s.waiting_for_input = true)
    (hc : ∀ m ∈ s.app.messages, m.complete = true) :
    tick flow style s now ev = handleEvent flow s false ev := by
  have hemit : emitPhase flow style s = (s, false) := by
    simp [emitPhase, hw]
  simp only [tick, hemit]
  rw [updateAllTyping_complete hc, typingInProgress_complete hc]
  rfl

/-- C4: on a submitted input that matches no option keyword and no exit word,
at a node with no `next_node`, the node id is unchanged, the session remains
awaiting input, and a bot help message is appended whose option list is
quoted and punctuated as the spec describes ("No options available." for
zero keys, `'x'` for one, comma-joined with "or" before the last
otherwise). -/
theorem unrecognized_input_keeps_node :
    (∀ keys, optionsListString keys = specJoinKeys keys) ∧
    ∀ (flow : ConversationFlow) (style : String) (s : SessionState) (now : Nat)
      (node : Node),
      s.waiting_for_input = true →
      s.conversation_ended = false →
      (∀ m ∈ s.app.messages, m.complete = true) →
      s.app.input ≠ "" →
      lookupNode flow s.current_node_id = some node →
      findOption node.options (normalizeInput s.app.input) = none →
      normalizeInput s.app.input ∉ EXIT_COMMANDS →
      node.next_node = none →
      ∃ s', tick flow style s now (some Event.enter) = TickResult.next s' ∧
        s'.current_node_id = s.current_node_id ∧
        s'.waiting_for_input = true ∧
        s'.conversation_ended = false ∧
        s'.app.messages = s.app.messages ++
          [userMessageOf s.app.input,
           ChatMessage.new (unrecognizedMessage node) true] ∧
        unrecognizedMessage node =
          "I'm sorry, I didn't understand that. Please choose from: "
            ++ specJoinKeys (node.options.map Prod.fst) := by
  refine ⟨optionsList_eq_specJoin, ?_⟩
  intro flow style s now node hw he hc hin hlook hfind hexit hdef
  rw [tick_awaiting flow style s now (some Event.enter) hw hc]
  show ∃ s', handleEnter flow s false = TickResult.next s' ∧ _
  simp only [handleEnter, he, hin]
  rw [hlook]
  simp only [routeInput_help hfind hexit hdef]
  refine ⟨_, rfl, rfl, hw, rfl, ?_, ?_⟩
  · simp [AppState.add_message]
  · simp [unrecognizedMessage, optionsList_eq_specJoin]

/-- Witness for C4: submitting "zzz" at a two-option node appends the user
turn and the punctuated help message, and keeps the node. -/
theorem unrecognized_input_keeps_node_witness :
    ∃ s', tick exFlowTwoOpts "base" exStateTwoOpts 0 (some Event.enter) = TickResult.next s' ∧
      s'.current_node_id = exStateTwoOpts.current_node_id ∧
      s'.waiting_for_input = true ∧
      s'.conversation_ended = false ∧
      s'.app.messages = exStateTwoOpts.app.messages ++
        [userMessageOf exStateTwoOpts.app.input,
         ChatMessage.new (unrecognizedMessage exNodeTwoOpts) true] ∧
      unrecognizedMessage exNodeTwoOpts =
        "I'm sorry, I didn't understand that. Please choose from: "
          ++ specJoinKeys (exNodeTwoOpts.options.map Prod.fst) :=
  unrecognized_input_keeps_node.2 exFlowTwoOpts "base" exStateTwoOpts 0 exNodeTwoOpts
    (by decide) (by decide)
    (by intro m hm; simp [exStateTwoOpts] at hm) (by decide) (by decide)
    (by decide) (by decide) (by decide)

/-- C5 (amended): submitting an empty line while awaiting input is a no-op —
the tick returns the state unchanged. -/
theorem empty_submit_noop (flow : ConversationFlow) (style : String)
    (s : SessionState) (now : Nat)
    (hw : s.waiting_for_input = true)
    (he : s.conversation_ended = false)
    (hc : ∀ m ∈ s.app.messages, m.complete = true)
    (hin : s.app.input = "") :
    tick flow style s now (some Event.enter) = TickResult.next s := by
  rw [tick_awaiting flow style s now (some Event.enter) hw hc]
  simp [handleEvent, handleEnter, he, hin]

/-- Witness for C5's amended statement at a concrete state. -/
theorem empty_submit_noop_witness :
    tick exFlowBare "base" exStateEmptyInput 0 (some Event.enter) =
      TickResult.next exStateEmptyInput :=
  empty_submit_noop exFlowBare "base" exStateEmptyInput 0 (by decide) (by decide)
    (by intro m hm; simp [exStateEmptyInput] at hm) (by decide)

/-- Counterexample to C5 as stated: submitting the whitespace-only line " "
is processed as a submission — two messages (the raw user line and a help
message) are appended to the previously empty history. -/
theorem whitespace_submit_appends :
    (tickNextState (tick exFlowBare "base" exStateWhitespace 0 (some Event.enter))).map
        (fun s => s.app.messages.length) = some 2 ∧
    exStateWhitespace.app.messages.length = 0 := by
  decide

/-- The emission phase preserves the graph-integrity invariant, and when it
does not `continue`, it leaves the session awaiting input or ended. -/
theorem emitPhase_safe (flow : ConversationFlow) (style : String) (s : SessionState)
    (hok : NodeOk flow s) :
    NodeOk flow (emitPhase flow style s).1 ∧
    ((emitPhase flow style s).2 = false →
      (emitPhase flow style s).1.waiting_for_input = true ∨
        (emitPhase flow style s).1.conversation_ended = true) := by
  cases hw : s.waiting_for_input with
  | true =>
    constructor
    · simpa [emitPhase, hw] using hok
    · intro _
      left
      simp [emitPhase, hw]
  | false =>
    cases he : s.conversation_ended with
    | true =>
      constructor
      · simpa [emitPhase, hw, he] using hok
      · intro _
        right
        simp [emitPhase, hw, he]
    | false =>
      cases hnode : lookupNode flow s.current_node_id with
      | none =>
        constructor
        · intro h1 h2
          simp [emitPhase, hw, he, hnode] at h2
        · intro hf
          simp [emitPhase, hw, he, hnode] at hf
      | some node =>
        constructor
        · intro h1 h2
          simp [emitPhase, hw, he, hnode]
        · intro _
          left
          simp [emitPhase, hw, he, hnode]

/-- The `Enter` branch never reaches the `unwrap()` panic under the
graph-integrity invariant, and preserves the invariant. -/
theorem handleEnter_safe (flow : ConversationFlow) (s : SessionState) (tip : Bool)
    (hok : NodeOk flow s)
    (hwe : s.waiting_for_input = true ∨ s.conversation_ended = true) :
    handleEnter flow s tip ≠ TickResult.panicked ∧
    (∀ s', handleEnter flow s tip = TickResult.next s' → NodeOk flow s') := by
  by_cases hend : s.conversation_ended = true
  · constructor
    · simp [handleEnter, hend]
    · intro s' h
      simp [handleEnter, hend] at h
  · have hend' : s.conversation_ended = false := by
      cases hcase : s.conversation_ended
      · rfl
      · exact absurd hcase hend
    have hw : s.waiting_for_input = true := hwe.resolve_right hend
    obtain ⟨node, hnode⟩ := Option.isSome_iff_exists.mp (hok hw hend')
    by_cases htip : tip = true
    · constructor
      · simp [handleEnter, hend', htip]
      · intro s' h
        simp only [handleEnter, hend', htip] at h
        simp only [Bool.false_eq_true, if_false, if_true, TickResult.next.injEq] at h
        rw [← h]
        exact hok
    · have htip' : tip = false := by
        cases hcase : tip
        · rfl
        · exact absurd hcase htip
      by_cases hinp : s.app.input = ""
      · constructor
        · simp [handleEnter, hend', htip', hinp]
        · intro s' h
          simp only [handleEnter, hend', htip', hinp] at h
          simp only [Bool.false_eq_true, if_false, if_true, TickResult.next.injEq] at h
          rw [← h]
          exact hok
      · cases hroute : routeInput node (normalizeInput s.app.input) with
        | goto id =>
          constructor
          · simp [handleEnter, hend', htip', hinp, hnode, hroute]
          · intro s' h
            simp only [handleEnter, hend', htip', hinp, hnode, hroute] at h
            simp only [Bool.false_eq_true, if_false, if_neg hinp,
              TickResult.next.injEq] at h
            rw [← h]
            intro h1 _
            simp at h1
        | help msg =>
          constructor
          · simp [handleEnter, hend', htip', hinp, hnode, hroute]
          · intro s' h
            simp only [handleEnter, hend', htip', hinp, hnode, hroute] at h
            simp only [Bool.false_eq_true, if_false, if_neg hinp,
              TickResult.next.injEq] at h
            rw [← h]
            exact fun h1 _ => hok h1 hend'

/-- Event dispatch never panics under the invariant and preserves it. -/
theorem handleEvent_safe (flow : ConversationFlow) (s : SessionState) (tip : Bool)
    (ev : Option Event) (hok : NodeOk flow s)
    (hwe : s.waiting_for_input = true ∨ s.conversation_ended = true) :
    handleEvent flow s tip ev ≠ TickResult.panicked ∧
    (∀ s', handleEvent flow s tip ev = TickResult.next s' → NodeOk flow s') := by
  cases ev with
  | none =>
    refine ⟨by simp [handleEvent], fun s' h => ?_⟩
    simp only [handleEvent, TickResult.next.injEq] at h
    rw [← h]; exact hok
  | some e =>
    cases e with
    | keyChar c =>
      refine ⟨by simp [handleEvent], fun s' h => ?_⟩
      simp only [handleEvent, TickResult.next.injEq] at h
      rw [← h]
      split
      · exact hok
      · exact hok
    | backspace =>
      refine ⟨by simp [handleEvent], fun s' h => ?_⟩
      simp only [handleEvent, TickResult.next.injEq] at h
      rw [← h]
      split
      · exact hok
      · exact hok
    | enter => exact handleEnter_safe flow s tip hok hwe
    | esc =>
      refine ⟨by simp [handleEvent], fun s' h => ?_⟩
      simp [handleEvent] at h
    | up =>
      refine ⟨by simp [handleEvent], fun s' h => ?_⟩
      simp only [handleEvent, TickResult.next.injEq] at h
      rw [← h]; exact hok
    | down =>
      refine ⟨by simp [handleEvent], fun s' h => ?_⟩
      simp only [handleEvent, TickResult.next.injEq] at h
      rw [← h]; exact hok
    | other =>
      refine ⟨by simp [handleEvent], fun s' h => ?_⟩
      simp only [handleEvent, TickResult.next.injEq] at h
      rw [← h]; exact hok

/-- One tick never panics under the invariant, and preserves it. -/
theorem tick_safe (flow : ConversationFlow) (style : String) (s : SessionState)
    (now : Nat) (ev : Option Event) (hok : NodeOk flow s) :
    tick flow style s now ev ≠ TickResult.panicked ∧
    (∀ s', tick flow style s now ev = TickResult.next s' → NodeOk flow s') := by
  obtain ⟨hok1, hwe1⟩ := emitPhase_safe flow style s hok
  by_cases hflag : (emitPhase flow style s).2 = true
  · constructor
    · simp [tick, hflag]
    · intro s' h
      simp only [tick, hflag, if_true, TickResult.next.injEq] at h
      rw [← h]
      exact hok1
  · have hflag' : (emitPhase flow style s).2 = false := by
      cases hcase : (emitPhase flow style s).2
      · rfl
      · exact absurd hcase hflag
    have hwe := hwe1 hflag'
    set s1 := (emitPhase flow style s).1 with hs1
    have hok2 : NodeOk flow
        { s1 with app := { s1.app with messages := updateAllTyping s1.app.messages now } } :=
      hok1
    have hwe2 : ({ s1 with
        app := { s1.app with messages := updateAllTyping s1.app.messages now } } :
          SessionState).waiting_for_input = true ∨
        ({ s1 with
          app := { s1.app with messages := updateAllTyping s1.app.messages now } } :
          SessionState).conversation_ended = true := hwe
    have hmain := handleEvent_safe flow
      { s1 with app := { s1.app with messages := updateAllTyping s1.app.messages now } }
      (typingInProgress (updateAllTyping s1.app.messages now)) ev hok2 hwe2
    constructor
    · intro hcontra
      refine hmain.1 ?_
      rw [← hcontra]
      simp only [tick, hflag', Bool.false_eq_true, if_false]
    · intro s' h
      refine hmain.2 s' ?_
      rw [← h]
      simp only [tick, hflag', Bool.false_eq_true, if_false]

/-- Every reachable session state satisfies the graph-integrity invariant. -/
theorem reachable_nodeOk {flow : ConversationFlow} {style : String}
    {s : SessionState} (h : Reachable flow style s) : NodeOk flow s := by
  induction h with
  | init =>
    intro hw _
    simp [initialState] at hw
  | step hr htick ih => exact (tick_safe _ _ _ _ _ ih).2 _ htick

/-- C6: when a bot turn is to be emitted for a node id absent from the graph,
a visible bot error message is appended and the conversation ends; and from
any reachable state the loop never hits the unchecked lookup's panic. -/
theorem missing_node_recoverable :
    (∀ (flow : ConversationFlow) (style : String) (s : SessionState),
      Reachable flow style s →
      ∀ (now : Nat) (ev : Option Event),
        tick flow style s now ev ≠ TickResult.panicked) ∧
    (∀ (flow : ConversationFlow) (style : String) (s : SessionState),
      s.waiting_for_input = false → s.conversation_ended = false →
      lookupNode flow s.current_node_id = none →
      emitPhase flow style s =
        ({ s with
            app := s.app.add_message (invalidNodeText s.current_node_id) true
            conversation_ended := true
            waiting_for_input := true }, true)) := by
  constructor
  · intro flow style s hr now ev
    exact (tick_safe flow style s now ev (reachable_nodeOk hr)).1
  · intro flow style s hw he hlook
    simp [emitPhase, hw, he, hlook]

/-- Witness for C6: the initial state over the one-node graph never panics on
the next tick, and a concrete state pointing at the missing id "missing"
emits the error message and ends the conversation. -/
theorem missing_node_recoverable_witness :
    tick exFlowBare "base" initialState 0 none ≠ TickResult.panicked ∧
    emitPhase exFlowBare "base" exStateMissingNode =
      ({ exStateMissingNode with
          app := exStateMissingNode.app.add_message (invalidNodeText "missing") true
          conversation_ended := true
          waiting_for_input := true }, true) :=
  ⟨missing_node_recoverable.1 exFlowBare "base" initialState Reachable.init 0 none,
   missing_node_recoverable.2 exFlowBare "base" exStateMissingNode rfl rfl (by decide)⟩

/-- Appending messages never touches the scroll offset. -/
theorem addMessages_scroll_offset : ∀ (items : List (String × Bool)) (a : AppState),
    (addMessages a items).scroll_offset = a.scroll_offset
  | [], _ => rfl
  | it :: its, a => by
    show (addMessages (a.add_message it.1 it.2) its).scroll_offset = _
    rw [addMessages_scroll_offset its]
    rfl

/-- C9: a manual scroll action (up or down) disables auto-scroll, and while
auto-scroll is disabled appending new messages leaves the scroll offset
unchanged; in particular any sequence of appends after a manual scroll leaves
the viewport offset where the scroll action put it. -/
theorem manual_scroll_freezes_viewport :
    (∀ (a : AppState) (k : Nat),
      (a.scroll_up k).auto_scroll = false ∧ a.scroll_down.auto_scroll = false) ∧
    (∀ (a : AppState), a.auto_scroll = false →
      ∀ (items : List (String × Bool)),
        (addMessages a items).scroll_offset = a.scroll_offset) ∧
    (∀ (a : AppState) (k : Nat) (items : List (String × Bool)),
      (addMessages (a.scroll_up k) items).scroll_offset = (a.scroll_up k).scroll_offset ∧
      (addMessages a.scroll_down items).scroll_offset = a.scroll_down.scroll_offset) := by
  refine ⟨fun a k => ⟨rfl, rfl⟩, fun a _ items => addMessages_scroll_offset items a, ?_⟩
  intro a k items
  exact ⟨addMessages_scroll_offset items _, addMessages_scroll_offset items _⟩

/-- Witness for C9 at a concrete app state. -/
theorem manual_scroll_freezes_viewport_witness :
    AppState.new.scroll_down.auto_scroll = false ∧
    (addMessages AppState.new.scroll_down [("hello", true)]).scroll_offset =
      AppState.new.scroll_down.scroll_offset :=
  ⟨(manual_scroll_freezes_viewport.1 AppState.new 10).2,
   manual_scroll_freezes_viewport.2.1 AppState.new.scroll_down
     (manual_scroll_freezes_viewport.1 AppState.new 10).2 [("hello", true)]⟩

/-- C10: a bot message with empty text never completes — every typing update
returns false and leaves it unchanged — so while it is in the history the
typing pass keeps reporting typing-in-progress and the submit action is
ignored on every tick. -/
theorem empty_bot_message_blocks_submit :
    (∀ now : Nat,
      (ChatMessage.new "" true).update_typing now = (ChatMessage.new "" true, false)) ∧
    (∀ (msgs : List ChatMessage) (now : Nat), ChatMessage.new "" true ∈ msgs →
      ChatMessage.new "" true ∈ updateAllTyping msgs now ∧
      typingInProgress (updateAllTyping msgs now) = true) ∧
    (∀ (flow : ConversationFlow) (style : String) (s : SessionState) (now : Nat),
      s.waiting_for_input = true → s.conversation_ended = false →
      ChatMessage.new "" true ∈ s.app.messages →
      tick flow style s now (some Event.enter) =
        TickResult.next
          { s with app :=
              { s.app with messages := updateAllTyping s.app.messages now } }) := by
  have h1 : ∀ now : Nat,
      (ChatMessage.new "" true).update_typing now = (ChatMessage.new "" true, false) :=
    fun _ => rfl
  have h2 : ∀ (msgs : List ChatMessage) (now : Nat), ChatMessage.new "" true ∈ msgs →
      ChatMessage.new "" true ∈ updateAllTyping msgs now ∧
      typingInProgress (updateAllTyping msgs now) = true := by
    intro msgs now hm
    have hmem : ChatMessage.new "" true ∈ updateAllTyping msgs now := by
      have hmap := List.mem_map_of_mem
        (fun m => if m.is_bot = true ∧ ¬ m.complete = true then (m.update_typing now).1 else m)
        hm
      simpa [updateAllTyping] using hmap
    refine ⟨hmem, ?_⟩
    rw [typingInProgress, List.any_eq_true]
    exact ⟨ChatMessage.new "" true, hmem, rfl⟩
  refine ⟨h1, h2, ?_⟩
  intro flow style s now hw he hmem
  have hemit : emitPhase flow style s = (s, false) := by simp [emitPhase, hw]
  have htip : typingInProgress (updateAllTyping s.app.messages now) = true :=
    (h2 s.app.messages now hmem).2
  simp only [tick, hemit]
  simp [handleEvent, handleEnter, he, htip]

/-- Witness for C10 at a concrete state holding an empty bot message. -/
theorem empty_bot_message_blocks_submit_witness :
    tick exFlowBare "base" exStateEmptyBotMsg 0 (some Event.enter) =
      TickResult.next
        { exStateEmptyBotMsg with app :=
            { exStateEmptyBotMsg.app with
                messages := updateAllTyping exStateEmptyBotMsg.app.messages 0 } } :=
  empty_bot_message_blocks_submit.2.2 exFlowBare "base" exStateEmptyBotMsg 0 rfl rfl
    (by decide)


/-- A complete message is never changed by further typing updates. -/
theorem update_typing_complete (m : ChatMessage) (now : Nat) (h : m.complete = true) :
    m.update_typing now = (m, false) := by
  simp [ChatMessage.update_typing, h]

/-- One typing update of a message whose text has no spaces: it reveals
exactly one character iff the message is incomplete, characters remain, and
the base-delay gate is open (immediately on the first reveal); otherwise it
returns the message unchanged. -/
theorem update_typing_eq {text : String} (hns : ∀ c ∈ text.data, c ≠ ' ')
    {m : ChatMessage} (now : Nat) (htext : m.text = text)
    (hd : m.displayed_chars ≤ text.length) :
    m.update_typing now =
      if m.complete = false ∧ m.displayed_chars < text.length ∧
          baseGate m.last_char_time now = true then
        ({ m with
            displayed_chars := m.displayed_chars + 1
            last_char_time := some now
            complete := decide (text.length ≤ m.displayed_chars + 1) }, true)
      else (m, false) := by
  cases hcomp : m.complete with
  | true => simp [ChatMessage.update_typing, hcomp]
  | false =>
    cases hlast : m.last_char_time with
    | none =>
      by_cases hdlt : m.displayed_chars < text.length
      · simp [ChatMessage.update_typing, hcomp, hlast, baseGate, htext, hdlt]
      · simp [ChatMessage.update_typing, hcomp, hlast, baseGate, htext, hdlt]
    | some l =>
      by_cases hd0 : m.displayed_chars > 0
      · have hlen : text.length = text.data.length := rfl
        have hidx : m.displayed_chars - 1 < text.data.length := by omega
        have hget : text.data[m.displayed_chars - 1]? =
            some (text.data[m.displayed_chars - 1]) := List.getElem?_eq_getElem hidx
        have hcne : text.data[m.displayed_chars - 1] ≠ ' ' :=
          hns _ (List.getElem_mem hidx)
        by_cases hgate : (5 : Nat) ≤ now - l
        · by_cases hdlt : m.displayed_chars < text.length
          · simp [ChatMessage.update_typing, hcomp, hlast, hd0, htext, hget, hcne,
              baseGate, hgate, hdlt]
          · simp [ChatMessage.update_typing, hcomp, hlast, hd0, htext, hget, hcne,
              baseGate, hgate, hdlt]
        · simp [ChatMessage.update_typing, hcomp, hlast, hd0, htext, hget, hcne,
            baseGate, hgate]
      · by_cases hgate : (5 : Nat) ≤ now - l
        · by_cases hdlt : m.displayed_chars < text.length
          · simp [ChatMessage.update_typing, hcomp, hlast, hd0, htext, baseGate,
              hgate, hdlt]
          · simp [ChatMessage.update_typing, hcomp, hlast, hd0, htext, baseGate,
              hgate, hdlt]
        · simp [ChatMessage.update_typing, hcomp, hlast, hd0, htext, baseGate, hgate]

/-- Folding typing updates over a no-space message: the reveal count equals
the displayed-character delta, stays within the text length, and completion
holds exactly when every character is displayed. -/
theorem runUpdates_inv {text : String} (hns : ∀ c ∈ text.data, c ≠ ' ') :
    ∀ (ts : List Nat) (m : ChatMessage),
      m.text = text →
      m.displayed_chars ≤ text.length →
      (m.complete = true ↔ 0 < text.length ∧ m.displayed_chars = text.length) →
      (runUpdates m ts).1.text = text ∧
      (runUpdates m ts).1.displayed_chars = m.displayed_chars + (runUpdates m ts).2 ∧
      (runUpdates m ts).1.displayed_chars ≤ text.length ∧
      ((runUpdates m ts).1.complete = true ↔
        0 < text.length ∧ (runUpdates m ts).1.displayed_chars = text.length)
  | [], m, htext, hd, hcomp =>
    ⟨htext, by simp [runUpdates], hd, by simpa [runUpdates] using hcomp⟩
  | t :: ts, m, htext, hd, hcomp => by
    have heq := update_typing_eq hns t htext hd
    by_cases hcond : m.complete = false ∧ m.displayed_chars < text.length ∧
        baseGate m.last_char_time t = true
    · rw [if_pos hcond] at heq
      have ihres := runUpdates_inv hns ts
        { m with
            displayed_chars := m.displayed_chars + 1
            last_char_time := some t
            complete := decide (text.length ≤ m.displayed_chars + 1) }
        htext (by simpa using hcond.2.1)
        (by
          simp only [decide_eq_true_eq]
          constructor
          · intro hle
            exact ⟨by omega, by omega⟩
          · intro hx
            omega)
      simp only [runUpdates, heq]
      refine ⟨ihres.1, ?_, ihres.2.2.1, ihres.2.2.2⟩
      rw [ihres.2.1]
      simp
      omega
    · rw [if_neg hcond] at heq
      have ihres := runUpdates_inv hns ts m htext hd hcomp
      simp only [runUpdates, heq]
      refine ⟨ihres.1, ?_, ihres.2.2.1, ihres.2.2.2⟩
      rw [ihres.2.1]
      simp

/-- C7: starting from a fresh bot message whose text has no spaces, over any
sequence of update times, each update that returns true reveals exactly one
character (displayed = count of reveals), the message is complete exactly
when the number of reveals reaches the text length (so exactly N reveals are
needed for length N ≥ 1), a complete message is unchanged by further updates,
and an update reveals iff characters remain and the 5 ms base-delay gate is
open — immediately on the first reveal. -/
theorem typing_reveals_each_char (text : String) (hns : ∀ c ∈ text.data, c ≠ ' ')
    (ts : List Nat) :
    (runUpdates (ChatMessage.new text true) ts).1.displayed_chars =
      (runUpdates (ChatMessage.new text true) ts).2 ∧
    (runUpdates (ChatMessage.new text true) ts).2 ≤ text.length ∧
    ((runUpdates (ChatMessage.new text true) ts).1.complete = true ↔
      0 < text.length ∧ (runUpdates (ChatMessage.new text true) ts).2 = text.length) ∧
    (∀ now, (runUpdates (ChatMessage.new text true) ts).1.complete = true →
      (runUpdates (ChatMessage.new text true) ts).1.update_typing now =
        ((runUpdates (ChatMessage.new text true) ts).1, false)) ∧
    (∀ now,
      ((runUpdates (ChatMessage.new text true) ts).1.update_typing now).2 = true ↔
      ((runUpdates (ChatMessage.new text true) ts).1.complete = false ∧
        (runUpdates (ChatMessage.new text true) ts).2 < text.length ∧
        baseGate (runUpdates (ChatMessage.new text true) ts).1.last_char_time now =
          true)) := by
  obtain ⟨ht, hdisp, hle, hcomp⟩ := runUpdates_inv hns ts (ChatMessage.new text true)
    rfl (by simp [ChatMessage.new]) (by simp [ChatMessage.new]; omega)
  have hdisp' : (runUpdates (ChatMessage.new text true) ts).1.displayed_chars =
      (runUpdates (ChatMessage.new text true) ts).2 := by
    rw [hdisp]; simp [ChatMessage.new]
  have hle' : (runUpdates (ChatMessage.new text true) ts).2 ≤ text.length := by
    rw [← hdisp']; exact hle
  refine ⟨hdisp', hle', by rw [← hdisp']; exact hcomp,
    fun now h => update_typing_complete _ now h, ?_⟩
  intro now
  have heq := update_typing_eq hns now ht hle
  by_cases hcond : (runUpdates (ChatMessage.new text true) ts).1.complete = false ∧
      (runUpdates (ChatMessage.new text true) ts).1.displayed_chars < text.length ∧
      baseGate (runUpdates (ChatMessage.new text true) ts).1.last_char_time now = true
  · rw [if_pos hcond] at heq
    rw [heq]
    simp only [true_iff]
    exact ⟨hcond.1, by rw [← hdisp']; exact hcond.2.1, hcond.2.2⟩
  · rw [if_neg hcond] at heq
    rw [heq]
    simp only [Bool.false_eq_true, false_iff]
    intro hx
    exact hcond ⟨hx.1, by rw [hdisp']; exact hx.2.1, hx.2.2⟩

/-- Witness for C7: the three-character message "abc", updated at times 0, 5
and 10, reveals three characters and completes. -/
theorem typing_reveals_each_char_witness :
    (runUpdates (ChatMessage.new "abc" true) [0, 5, 10]).2 = 3 ∧
    (runUpdates (ChatMessage.new "abc" true) [0, 5, 10]).1.complete = true := by
  have h := typing_reveals_each_char "abc" (by decide) [0, 5, 10]
  exact ⟨by decide, h.2.2.1.mpr (by decide)⟩

/-- `splitWs` on a string with no leading non-whitespace: empty result. -/
theorem splitWs_nil_of {s : List Char} (h : s.dropWhile Char.isWhitespace = []) :
    splitWs s = [] := by
  unfold splitWs
  split
  · rfl
  · rename_i c cs heq
    rw [h] at heq
    cases heq

/-- `splitWs` unfolding when the string has a first word. -/
theorem splitWs_cons_of {s : List Char} {c : Char} {cs : List Char}
    (h : s.dropWhile Char.isWhitespace = c :: cs) :
    splitWs s = (c :: cs.takeWhile (fun ch => !ch.isWhitespace)) ::
      splitWs (cs.dropWhile (fun ch => !ch.isWhitespace)) := by
  conv_lhs => unfold splitWs
  split
  · rename_i heq
    rw [h] at heq
    cases heq
  · rename_i c2 cs2 heq
    rw [h] at heq
    cases heq
    rfl

/-- `dropWhile` keeps a list none of whose elements satisfy the predicate. -/
theorem dropWhile_of_none {p : Char → Bool} :
    ∀ {l : List Char}, (∀ c ∈ l, p c = false) → l.dropWhile p = l
  | [], _ => rfl
  | c :: cs, h => by
    have hc := h c (List.mem_cons_self _ _)
    simp [List.dropWhile_cons, hc]

/-- `takeWhile` keeps a list all of whose elements satisfy the predicate. -/
theorem takeWhile_of_all {p : Char → Bool} :
    ∀ {l : List Char}, (∀ c ∈ l, p c = true) → l.takeWhile p = l
  | [], _ => rfl
  | c :: cs, h => by
    have hc := h c (List.mem_cons_self _ _)
    have ht := takeWhile_of_all (fun x hx => h x (List.mem_cons_of_mem _ hx))
    simp [List.takeWhile_cons, hc, ht]

/-- `takeWhile` over a saturated prefix followed by a failing element. -/
theorem takeWhile_append_sat {p : Char → Bool} {x : Char} (v : List Char)
    (hx : p x = false) :
    ∀ (u : List Char), (∀ c ∈ u, p c = true) → (u ++ x :: v).takeWhile p = u
  | [], _ => by simp [List.takeWhile_cons, hx]
  | c :: cs, h => by
    have hc := h c (List.mem_cons_self _ _)
    have ht := takeWhile_append_sat v hx cs (fun y hy => h y (List.mem_cons_of_mem _ hy))
    simp [List.takeWhile_cons, hc, ht]

/-- `dropWhile` over a saturated prefix followed by a failing element. -/
theorem dropWhile_append_sat {p : Char → Bool} {x : Char} (v : List Char)
    (hx : p x = false) :
    ∀ (u : List Char), (∀ c ∈ u, p c = true) → (u ++ x :: v).dropWhile p = x :: v
  | [], _ => by simp [List.dropWhile_cons, hx]
  | c :: cs, h => by
    have hc := h c (List.mem_cons_self _ _)
    have ht := dropWhile_append_sat v hx cs (fun y hy => h y (List.mem_cons_of_mem _ hy))
    simp [List.dropWhile_cons, hc, ht]

/-- Leading whitespace is ignored by `splitWs`. -/
theorem splitWs_ws_cons {c : Char} (hc : c.isWhitespace = true) (s : List Char) :
    splitWs (c :: s) = splitWs s := by
  have hd : (c :: s).dropWhile Char.isWhitespace = s.dropWhile Char.isWhitespace := by
    simp [List.dropWhile_cons, hc]
  cases h2 : s.dropWhile Char.isWhitespace with
  | nil => rw [splitWs_nil_of (hd.trans h2), splitWs_nil_of h2]
  | cons a as => rw [splitWs_cons_of (hd.trans h2), splitWs_cons_of h2]

/-- A clean word splits as itself. -/
theorem splitWs_single {w : List Char} (hw : CleanWord w) : splitWs w = [w] := by
  obtain ⟨hne, hclean⟩ := hw
  cases w with
  | nil => cases hne rfl
  | cons c cs =>
    have hdrop : (c :: cs).dropWhile Char.isWhitespace = c :: cs :=
      dropWhile_of_none (fun x hx => hclean x hx)
    rw [splitWs_cons_of hdrop]
    have htake : cs.takeWhile (fun ch => !ch.isWhitespace) = cs :=
      takeWhile_of_all (fun x hx => by
        simp [hclean x (List.mem_cons_of_mem _ hx)])
    have hdrop2 : cs.dropWhile (fun ch => !ch.isWhitespace) = [] :=
      List.dropWhile_eq_nil_iff.mpr (fun x hx => by
        simp [hclean x (List.mem_cons_of_mem _ hx)])
    rw [htake, hdrop2, splitWs_nil_of (s := []) rfl]

/-- A clean word followed by a space splits off as the first word. -/
theorem splitWs_word_sep {w : List Char} (hw : CleanWord w) (X : List Char) :
    splitWs (w ++ ' ' :: X) = w :: splitWs X := by
  obtain ⟨hne, hclean⟩ := hw
  cases w with
  | nil => cases hne rfl
  | cons c cs =>
    have hc := hclean c (List.mem_cons_self _ _)
    have hrest : ∀ x ∈ cs, x.isWhitespace = false :=
      fun x hx => hclean x (List.mem_cons_of_mem _ hx)
    have hdrop : ((c :: cs) ++ ' ' :: X).dropWhile Char.isWhitespace
        = c :: (cs ++ ' ' :: X) := by
      simp [List.dropWhile_cons, hc]
    rw [splitWs_cons_of hdrop]
    have htake : (cs ++ ' ' :: X).takeWhile (fun ch => !ch.isWhitespace) = cs :=
      takeWhile_append_sat X (by simp) cs (fun x hx => by simp [hrest x hx])
    have hdrop2 : (cs ++ ' ' :: X).dropWhile (fun ch => !ch.isWhitespace) = ' ' :: X :=
      dropWhile_append_sat X (by simp) cs (fun x hx => by simp [hrest x hx])
    rw [htake, hdrop2, splitWs_ws_cons (by simp) X]

/-- `joinSp` of a cons with non-empty tail. -/
theorem joinSp_cons (w : List Char) {L : List (List Char)} (h : L ≠ []) :
    joinSp (w :: L) = w ++ ' ' :: joinSp L := by
  cases L with
  | nil => cases h rfl
  | cons a as => rfl

/-- `joinSp` of a non-empty clean group is non-empty. -/
theorem joinSp_ne_nil {cur : List (List Char)} (h : cur ≠ [])
    (hclean : ∀ w ∈ cur, CleanWord w) : joinSp cur ≠ [] := by
  cases cur with
  | nil => cases h rfl
  | cons w rest =>
    have hw := (hclean w (List.mem_cons_self _ _)).1
    cases rest with
    | nil => exact hw
    | cons a as =>
      rw [joinSp_cons w (by simp)]
      cases w with
      | nil => cases hw rfl
      | cons c cs => simp

/-- Appending one more word to a non-empty line. -/
theorem joinSp_append_single (w : List Char) :
    ∀ (cur : List (List Char)), cur ≠ [] →
      joinSp (cur ++ [w]) = joinSp cur ++ ' ' :: w
  | [], h => by cases h rfl
  | [x], _ => rfl
  | x :: y :: rest, _ => by
    have ih := joinSp_append_single w (y :: rest) (by simp)
    rw [show (x :: y :: rest) ++ [w] = x :: ((y :: rest) ++ [w]) from rfl,
      joinSp_cons x (by simp), ih, joinSp_cons x (by simp)]
    simp

/-- Splitting recovers the words of a clean join. -/
theorem splitWs_joinSp : ∀ (ws : List (List Char)), (∀ w ∈ ws, CleanWord w) →
    splitWs (joinSp ws) = ws
  | [], _ => splitWs_nil_of (s := []) rfl
  | [w], h => splitWs_single (h w (List.mem_cons_self _ _))
  | w :: w2 :: rest, h => by
    have ih := splitWs_joinSp (w2 :: rest)
      (fun x hx => h x (List.mem_cons_of_mem _ hx))
    rw [joinSp_cons w (by simp),
      splitWs_word_sep (h w (List.mem_cons_self _ _)) (joinSp (w2 :: rest)), ih]

/-- A non-empty clean join starts with a non-whitespace character. -/
theorem joinSp_head : ∀ (cur : List (List Char)), cur ≠ [] →
    (∀ w ∈ cur, CleanWord w) →
    ∃ c t, joinSp cur = c :: t ∧ c.isWhitespace = false
  | [], h, _ => (h rfl).elim
  | w :: rest, _, hclean => by
    obtain ⟨hne, hcw⟩ := hclean w (List.mem_cons_self _ _)
    cases w with
    | nil => cases hne rfl
    | cons c cs =>
      have hc := hcw c (List.mem_cons_self _ _)
      cases rest with
      | nil => exact ⟨c, cs, rfl, hc⟩
      | cons a as =>
        refine ⟨c, cs ++ ' ' :: joinSp (a :: as), ?_, hc⟩
        rw [joinSp_cons _ (by simp)]
        rfl

/-- A non-empty clean join ends with a non-whitespace character. -/
theorem joinSp_getLast : ∀ (cur : List (List Char)), cur ≠ [] →
    (∀ w ∈ cur, CleanWord w) →
    ∃ c, (joinSp cur).getLast? = some c ∧ c.isWhitespace = false
  | [], h, _ => (h rfl).elim
  | [w], _, hclean => by
    obtain ⟨hne, hcw⟩ := hclean w (List.mem_cons_self _ _)
    exact ⟨w.getLast hne, List.getLast?_eq_getLast_of_ne_nil hne,
      hcw _ (List.getLast_mem hne)⟩
  | w :: w2 :: rest, _, hclean => by
    obtain ⟨c, hlast, hc⟩ := joinSp_getLast (w2 :: rest) (by simp)
      (fun x hx => hclean x (List.mem_cons_of_mem _ hx))
    have hne2 : joinSp (w2 :: rest) ≠ [] :=
      joinSp_ne_nil (by simp) (fun x hx => hclean x (List.mem_cons_of_mem _ hx))
    refine ⟨c, ?_, hc⟩
    rw [joinSp_cons _ (by simp)]
    rw [List.getLast?_append]
    cases hj : joinSp (w2 :: rest) with
    | nil => cases hne2 hj
    | cons a as =>
      rw [hj] at hlast
      rw [List.getLast?_cons_cons, hlast]
      rfl

/-- `trimChars` leaves a string alone when both ends are non-whitespace. -/
theorem trimChars_of_ends {c : Char} {rest : List Char} (hc : c.isWhitespace = false)
    {d : Char} (hlast : (c :: rest).getLast? = some d) (hd : d.isWhitespace = false) :
    trimChars (c :: rest) = c :: rest := by
  unfold trimChars
  have h1 : (c :: rest).dropWhile Char.isWhitespace = c :: rest := by
    simp [List.dropWhile_cons, hc]
  rw [h1]
  have h2 : (c :: rest).reverse.head? = some d := by
    rw [List.head?_reverse]; exact hlast
  cases hr : (c :: rest).reverse with
  | nil => rw [hr] at h2; cases h2
  | cons e tl =>
    rw [hr] at h2
    have he : e = d := by
      simpa using h2
    rw [List.dropWhile_cons, he, hd]
    simp only [Bool.false_eq_true, if_false]
    rw [← he, ← hr, List.reverse_reverse]

/-- Trimming a non-empty clean join is the identity. -/
theorem trim_joinSp_clean {cur : List (List Char)} (h : cur ≠ [])
    (hclean : ∀ w ∈ cur, CleanWord w) :
    trimChars (joinSp cur) = joinSp cur := by
  obtain ⟨c, t, hcons, hc⟩ := joinSp_head cur h hclean
  obtain ⟨d, hlast, hd⟩ := joinSp_getLast cur h hclean
  rw [hcons] at hlast ⊢
  exact trimChars_of_ends hc hlast hd

/-- The first element surviving `dropWhile` fails the predicate. -/
theorem dropWhile_head_false {p : Char → Bool} :
    ∀ {l : List Char} {c : Char} {cs : List Char},
      l.dropWhile p = c :: cs → p c = false
  | [], _, _, h => by cases h
  | x :: xs, c, cs, h => by
    by_cases hx : p x = true
    · rw [List.dropWhile_cons, if_pos hx] at h
      exact dropWhile_head_false h
    · rw [List.dropWhile_cons, if_neg hx] at h
      cases h
      cases hpc : p x
      · rfl
      · exact absurd hpc hx

/-- Every word produced by `splitWs` is non-empty and whitespace-free. -/
theorem splitWs_clean : ∀ (s : List Char) (w : List Char), w ∈ splitWs s → CleanWord w
  | s, w, hw => by
    cases h : s.dropWhile Char.isWhitespace with
    | nil =>
      rw [splitWs_nil_of h] at hw
      cases hw
    | cons c cs =>
      rw [splitWs_cons_of h] at hw
      rcases List.mem_cons.mp hw with hw1 | hw2
      · subst hw1
        refine ⟨by simp, ?_⟩
        intro x hx
        rcases List.mem_cons.mp hx with hx1 | hx2
        · subst hx1
          exact dropWhile_head_false h
        · have hp := List.mem_takeWhile_imp hx2
          simpa using hp
      · exact splitWs_clean (cs.dropWhile (fun ch => !ch.isWhitespace)) w hw2
termination_by s => s.length
decreasing_by
  have h1 : (s.dropWhile Char.isWhitespace).length ≤ s.length :=
    (List.dropWhile_sublist _).length_le
  rw [h] at h1
  have h2 : (cs.dropWhile (fun ch => !ch.isWhitespace)).length ≤ cs.length :=
    (List.dropWhile_sublist _).length_le
  simp only [List.length_cons] at h1
  omega

/-- One step of the wrapping loop. -/
theorem wrapCore_cons (maxW : Nat) (w : List Char) (ws lines : List (List Char))
    (current : List Char) :
    wrapCore maxW (w :: ws) lines current =
      (let flushed :=
        if current.length + w.length + 1 > maxW then
          if current ≠ [] then (lines ++ [trimChars current], ([] : List Char))
          else (lines, current)
        else (lines, current)
      let current2 :=
        if flushed.2 ≠ [] then flushed.2 ++ ' ' :: w else flushed.2 ++ w
      wrapCore maxW ws flushed.1 current2) := rfl

/-- `joinSp` distributes over appending non-empty groups. -/
theorem joinSp_append : ∀ (a : List (List Char)), a ≠ [] →
    ∀ (b : List (List Char)), b ≠ [] →
      joinSp (a ++ b) = joinSp a ++ ' ' :: joinSp b
  | [], h, _, _ => (h rfl).elim
  | [x], _, b, hb => by
    rw [show ([x] ++ b) = x :: b from rfl, joinSp_cons x hb]
    rfl
  | x :: y :: rest, _, b, hb => by
    have ih := joinSp_append (y :: rest) (by simp) b hb
    rw [show ((x :: y :: rest) ++ b) = x :: ((y :: rest) ++ b) from rfl,
      joinSp_cons x (by simp), ih, joinSp_cons x (by simp)]
    simp

/-- Joining the lines of joined groups equals joining all the words. -/
theorem joinSp_map_flatten : ∀ (L : List (List (List Char))),
    (∀ g ∈ L, g ≠ []) → joinSp (L.map joinSp) = joinSp L.flatten
  | [], _ => rfl
  | [g], _ => by
    simp only [List.map_cons, List.map_nil, List.flatten_cons, List.flatten_nil,
      List.append_nil]
    rfl
  | g :: g2 :: rest, h => by
    have hg : g ≠ [] := h g (List.mem_cons_self _ _)
    have hg2 : g2 ≠ [] := h g2 (by simp)
    have ih := joinSp_map_flatten (g2 :: rest)
      (fun x hx => h x (List.mem_cons_of_mem _ hx))
    have hflne : (g2 :: rest).flatten ≠ [] := by
      cases g2 with
      | nil => cases hg2 rfl
      | cons a as => simp [List.flatten]
    rw [List.map_cons, joinSp_cons _ (by simp), ih,
      show (g :: g2 :: rest).flatten = g ++ (g2 :: rest).flatten from rfl,
      joinSp_append g hg _ hflne]

/-- Invariant of the wrapping loop: lines are joins of non-empty clean word
groups, the pending line is a join of clean words, and no word is ever lost
or split. -/
theorem wrapCore_inv (maxW : Nat) :
    ∀ (ws : List (List Char)) (gs : List (List (List Char))) (cs : List (List Char)),
      (∀ w ∈ ws, CleanWord w) →
      (∀ w ∈ cs, CleanWord w) →
      (∀ g ∈ gs, g ≠ [] ∧ ∀ w ∈ g, CleanWord w) →
      ∃ (gs' : List (List (List Char))) (cs' : List (List Char)),
        wrapCore maxW ws (gs.map joinSp) (joinSp cs) = (gs'.map joinSp, joinSp cs') ∧
        (∀ w ∈ cs', CleanWord w) ∧
        (∀ g ∈ gs', g ≠ [] ∧ ∀ w ∈ g, CleanWord w) ∧
        gs'.flatten ++ cs' = gs.flatten ++ cs ++ ws ∧
        (cs' = [] → cs = [] ∧ ws = [])
  | [], gs, cs, _, hcs, hgs =>
    ⟨gs, cs, rfl, hcs, hgs, by simp, fun h => ⟨h, rfl⟩⟩
  | w :: ws', gs, cs, hws, hcs, hgs => by
    have hw : CleanWord w := hws w (List.mem_cons_self _ _)
    have hws' : ∀ x ∈ ws', CleanWord x := fun x hx => hws x (List.mem_cons_of_mem _ hx)
    rw [wrapCore_cons]
    by_cases hcse : cs = []
    · subst hcse
      have hstep : (let flushed :=
            if (joinSp []).length + w.length + 1 > maxW then
              if joinSp [] ≠ [] then
                ((gs.map joinSp) ++ [trimChars (joinSp [])], ([] : List Char))
              else (gs.map joinSp, joinSp [])
            else (gs.map joinSp, joinSp [])
          let current2 :=
            if flushed.2 ≠ [] then flushed.2 ++ ' ' :: w else flushed.2 ++ w
          wrapCore maxW ws' flushed.1 current2) =
          wrapCore maxW ws' (gs.map joinSp) (joinSp [w]) := by
        by_cases hcond : (joinSp []).length + w.length + 1 > maxW
        · simp [hcond, joinSp]
        · simp [hcond, joinSp]
      rw [hstep]
      obtain ⟨gs', cs', heq, hc1, hc2, hc3, hc4⟩ :=
        wrapCore_inv maxW ws' gs [w] hws'
          (fun x hx => by
            rcases List.mem_singleton.mp hx with rfl
            exact hw) hgs
      refine ⟨gs', cs', heq, hc1, hc2, ?_, ?_⟩
      · rw [hc3]
        simp
      · intro hnil
        have := hc4 hnil
        simp at this
    · have hjne : joinSp cs ≠ [] := joinSp_ne_nil hcse hcs
      by_cases hcond : (joinSp cs).length + w.length + 1 > maxW
      · have hstep : (let flushed :=
              if (joinSp cs).length + w.length + 1 > maxW then
                if joinSp cs ≠ [] then
                  ((gs.map joinSp) ++ [trimChars (joinSp cs)], ([] : List Char))
                else (gs.map joinSp, joinSp cs)
              else (gs.map joinSp, joinSp cs)
            let current2 :=
              if flushed.2 ≠ [] then flushed.2 ++ ' ' :: w else flushed.2 ++ w
            wrapCore maxW ws' flushed.1 current2) =
            wrapCore maxW ws' ((gs ++ [cs]).map joinSp) (joinSp [w]) := by
          rw [if_pos hcond, if_pos hjne]
          simp only [ne_eq, not_true_eq_false, if_false, List.nil_append]
          rw [trim_joinSp_clean hcse hcs]
          rw [List.map_append]
          rfl
        rw [hstep]
        obtain ⟨gs', cs', heq, hc1, hc2, hc3, hc4⟩ :=
          wrapCore_inv maxW ws' (gs ++ [cs]) [w] hws'
            (fun x hx => by
              rcases List.mem_singleton.mp hx with rfl
              exact hw)
            (fun g hg => by
              rcases List.mem_append.mp hg with hg1 | hg2
              · exact hgs g hg1
              · rcases List.mem_singleton.mp hg2 with rfl
                exact ⟨hcse, hcs⟩)
        refine ⟨gs', cs', heq, hc1, hc2, ?_, ?_⟩
        · rw [hc3]
          simp
        · intro hnil
          have := hc4 hnil
          simp at this
      · have hstep : (let flushed :=
              if (joinSp cs).length + w.length + 1 > maxW then
                if joinSp cs ≠ [] then
                  ((gs.map joinSp) ++ [trimChars (joinSp cs)], ([] : List Char))
                else (gs.map joinSp, joinSp cs)
              else (gs.map joinSp, joinSp cs)
            let current2 :=
              if flushed.2 ≠ [] then flushed.2 ++ ' ' :: w else flushed.2 ++ w
            wrapCore maxW ws' flushed.1 current2) =
            wrapCore maxW ws' (gs.map joinSp) (joinSp (cs ++ [w])) := by
          rw [if_neg hcond]
          show wrapCore maxW ws' (gs.map joinSp)
              (if joinSp cs ≠ [] then joinSp cs ++ ' ' :: w else joinSp cs ++ w) = _
          rw [if_pos hjne, joinSp_append_single w cs hcse]
        rw [hstep]
        obtain ⟨gs', cs', heq, hc1, hc2, hc3, hc4⟩ :=
          wrapCore_inv maxW ws' gs (cs ++ [w])
            hws'
            (fun x hx => by
              rcases List.mem_append.mp hx with hx1 | hx2
              · exact hcs x hx1
              · rcases List.mem_singleton.mp hx2 with rfl
                exact hw)
            hgs
        refine ⟨gs', cs', heq, hc1, hc2, ?_, ?_⟩
        · rw [hc3]
          simp
        · intro hnil
          have := hc4 hnil
          simp at this

/-- C8: wrapping never splits or loses a word — splitting the lines joined
with single spaces reproduces exactly the whitespace-delimited word sequence
of the input — and for empty or all-whitespace input the result is exactly
one empty line, so the output is always non-empty. -/
theorem wrap_text_preserves_words (text : List Char) (maxW : Nat) :
    wrap_text text maxW ≠ [] ∧
    (splitWs text = [] → wrap_text text maxW = [[]]) ∧
    splitWs (joinSp (wrap_text text maxW)) = splitWs text := by
  obtain ⟨gs', cs', heq, hclean', hgs', hflat, hnil⟩ :=
    wrapCore_inv maxW (splitWs text) [] [] (splitWs_clean text) (by simp) (by simp)
  have heq' : wrapCore maxW (splitWs text) [] [] = (gs'.map joinSp, joinSp cs') := heq
  by_cases hcs : cs' = []
  · obtain ⟨-, hwsnil⟩ := hnil hcs
    have hwrap : wrap_text text maxW = [[]] := by
      unfold wrap_text
      rw [hwsnil]
      rfl
    refine ⟨by rw [hwrap]; simp, fun _ => hwrap, ?_⟩
    rw [hwrap, hwsnil]
    exact splitWs_nil_of (s := joinSp [[]]) rfl
  · have hjne : joinSp cs' ≠ [] := joinSp_ne_nil hcs hclean'
    have hwrap : wrap_text text maxW = gs'.map joinSp ++ [trimChars (joinSp cs')] := by
      unfold wrap_text
      rw [heq']
      simp [hjne]
    rw [hwrap]
    refine ⟨by simp, ?_, ?_⟩
    · intro hsplit
      rw [hsplit] at hflat
      simp only [List.flatten_nil, List.nil_append, List.append_nil] at hflat
      rcases List.append_eq_nil.mp hflat with ⟨-, h2⟩
      exact absurd h2 hcs
    · rw [trim_joinSp_clean hcs hclean']
      have hmapapp : gs'.map joinSp ++ [joinSp cs'] = (gs' ++ [cs']).map joinSp := by
        simp
      have hne2 : ∀ g ∈ gs' ++ [cs'], g ≠ [] := by
        intro g hg
        rcases List.mem_append.mp hg with h1 | h2
        · exact (hgs' g h1).1
        · rcases List.mem_singleton.mp h2 with rfl
          exact hcs
      have hcl2 : ∀ w ∈ (gs' ++ [cs']).flatten, CleanWord w := by
        intro w hw
        rcases List.mem_flatten.mp hw with ⟨g, hg, hwg⟩
        rcases List.mem_append.mp hg with h1 | h2
        · exact (hgs' g h1).2 w hwg
        · rcases List.mem_singleton.mp h2 with rfl
          exact hclean' w hwg
      rw [hmapapp, joinSp_map_flatten (gs' ++ [cs']) hne2, splitWs_joinSp _ hcl2,
        List.flatten_append]
      simp only [List.flatten_cons, List.flatten_nil, List.append_nil]
      simpa using hflat

/-- Witness for C8: "hello world" wrapped at width 5 yields non-empty lines
whose joined words are the original two words, and an all-whitespace input
wraps to exactly one empty line. -/
theorem wrap_text_preserves_words_witness :
    wrap_text ("hello world".data) 5 ≠ [] ∧
    wrap_text ("   ".data) 7 = [[]] ∧
    splitWs (joinSp (wrap_text ("hello world".data) 5)) = splitWs ("hello world".data) :=
  ⟨(wrap_text_preserves_words ("hello world".data) 5).1,
   (wrap_text_preserves_words ("   ".data) 7).2.1 (splitWs_nil_of (by decide)),
   (wrap_text_preserves_words ("hello world".data) 5).2.2⟩
